/-
  Verification of the LegalGuardian index-construction pipeline
  (src/notebooks/create_index.ipynb).

  The notebook's pure logic is embedded shallowly:
  * `chunk_documents` (the chunker) is embedded with an explicit fuel
    argument for its inner `while` loop, so that the embedding stays a
    total function while still letting us talk about runs of the loop
    that never finish (`none` for every fuel).
  * The E5 embedder's arithmetic (`_average_pool`, the L2 normalisation
    performed by `torch.nn.functional.normalize`, the batching of
    `encode`) is embedded over real vectors `Fin d → ℝ`; the opaque
    pretrained model and tokenizer are parameters (`lastHidden`,
    `attnMask`) giving the per-text token representations, as the spec
    treats them as external collaborators.
  * The FAISS flat inner-product index is modelled by the list of added
    vectors in insertion order: `IndexFlatIP.add` appends rows and the
    position of a vector is its 0-based insertion rank.
-/
import Mathlib

open scoped BigOperators

namespace LegalGuardian

/-- One record of `legal_documents.json`: `item["Текст"]` and `item["Ссылка"]`. -/
structure Document where
  text : String
  reference : String
deriving DecidableEq, Repr

/-- Accumulator pass behind `splitWords`: `acc` holds the characters of the
word currently being read, most recent first. -/
def splitWordsAux : List Char → List Char → List String
  | [], acc => if acc.isEmpty then [] else [String.mk acc.reverse]
  | c :: cs, acc =>
    if c.isWhitespace then
      (if acc.isEmpty then [] else [String.mk acc.reverse]) ++ splitWordsAux cs []
    else
      splitWordsAux cs (c :: acc)

/-- Python `str.split()` (no argument): split on runs of whitespace,
dropping empty pieces, so leading/trailing whitespace yields no words. -/
def splitWords (s : String) : List String :=
  splitWordsAux s.toList []

/-- `len(text.split())`. -/
def countWords (s : String) : Nat :=
  (splitWords s).length

/-- The chunk text of the window starting at `cp`:
`" ".join(words[cp:end_position])` with
`end_position = min(cp + max_chunk_size, len(words))`. -/
def windowText (words : List String) (max_chunk_size cp : Nat) : String :=
  String.intercalate " "
    ((words.drop cp).take (min (cp + max_chunk_size) words.length - cp))

/-- The augmented reference of the window starting at `cp`:
`f"{reference} - Фрагмент {cp//max_chunk_size + 1}"`. -/
def windowRef (reference : String) (max_chunk_size cp : Nat) : String :=
  reference ++ " - Фрагмент " ++ toString (cp / max_chunk_size + 1)

/-- The inner `while current_position < len(words)` loop of
`chunk_documents`.  Each iteration appends one chunk text and one
reference in lockstep; we model the two appends of an iteration as
emitting the pair `(chunk, ref_info)`.  `fuel` bounds the number of
iterations: `none` means the loop did not finish within `fuel`
iterations.  The step `current_position += max_chunk_size - overlap`
is Python integer arithmetic; with truncated `Nat` subtraction the
successor position agrees with Python whenever `overlap < max_chunk_size`,
and in the remaining (non-positive step) regime both the Python loop and
this embedding never finish, so the observable result (`none`) agrees. -/
def chunkLoop (words : List String) (reference : String)
    (max_chunk_size overlap : Nat) : Nat → Nat → Option (List (String × String))
  | 0, cp =>
    if cp < words.length then none else some []
  | fuel + 1, cp =>
    if cp < words.length then
      match chunkLoop words reference max_chunk_size overlap fuel
          (cp + max_chunk_size - overlap) with
      | some rest =>
          some ((windowText words max_chunk_size cp,
                 windowRef reference max_chunk_size cp) :: rest)
      | none => none
    else some []

/-- The per-document body of `chunk_documents`: the short path appends the
original text and reference unchanged; longer texts go through the
sliding-window loop. -/
def docChunks (text reference : String) (max_chunk_size overlap fuel : Nat) :
    Option (List (String × String)) :=
  if countWords text ≤ max_chunk_size then
    some [(text, reference)]
  else
    chunkLoop (splitWords text) reference max_chunk_size overlap fuel 0

/-- The `for item in legal_data` loop: per-document chunk/reference pairs,
concatenated in document order. -/
def chunkPairs (max_chunk_size overlap fuel : Nat) :
    List Document → Option (List (String × String))
  | [] => some []
  | doc :: rest =>
    match docChunks doc.text doc.reference max_chunk_size overlap fuel,
        chunkPairs max_chunk_size overlap fuel rest with
    | some ps, some qs => some (ps ++ qs)
    | _, _ => none

/-- `chunk_documents(legal_data, max_chunk_size=256, overlap=50)`: the two
parallel lists `chunks` and `references` built by the lockstep appends. -/
def chunk_documents (legal_data : List Document)
    (max_chunk_size overlap fuel : Nat) : Option (List String × List String) :=
  (chunkPairs max_chunk_size overlap fuel legal_data).map
    (fun ps => (ps.map Prod.fst, ps.map Prod.snd))

example : splitWords "a b c d e" = ["a", "b", "c", "d", "e"] := by decide

example : splitWords "" = [] := by decide

example :
    chunk_documents [⟨"a b c d e", "Art.1"⟩] 3 1 10 =
      some (["a b c", "c d e", "e"],
            ["Art.1 - Фрагмент 1", "Art.1 - Фрагмент 1", "Art.1 - Фрагмент 2"]) := by
  decide

example :
    chunk_documents [⟨"", "R"⟩] 256 50 1 = some ([""], ["R"]) := by decide

/-! ### The E5 embedder (`E5Embedder`)

The pretrained encoder and tokenizer are opaque external collaborators:
we take as parameters the functions `lastHidden` (the per-token hidden
vectors the model produces for one input string) and `attnMask` (the
tokenizer's attention mask for that string).  Tokenizer padding inside a
batch only adds positions with mask `0`, which `_average_pool` excludes,
so per-string functions capture the batched computation. -/

/-- `∑` of squared entries of a vector, the square of its L2 norm. -/
noncomputable def sumSq {d : Nat} (v : Fin d → ℝ) : ℝ :=
  ∑ j, v j ^ 2

/-- The L2 norm of a vector. -/
noncomputable def l2norm {d : Nat} (v : Fin d → ℝ) : ℝ :=
  Real.sqrt (sumSq v)

/-- `torch.nn.functional.normalize(·, p=2, dim=1)` applied to one row:
`v / max(‖v‖₂, eps)` (torch's default `eps` is `1e-12`). -/
noncomputable def l2normalize {d : Nat} (eps : ℝ) (v : Fin d → ℝ) : Fin d → ℝ :=
  fun j => v j / max (l2norm v) eps

namespace E5Embedder

/-- `_average_pool(last_hidden_states, attention_mask)`: token vectors at
masked-out positions are filled with `0`, the rest are summed and divided
by the number of attended positions (`attention_mask.sum`). -/
noncomputable def average_pool {d : Nat} (last_hidden_states : List (Fin d → ℝ))
    (attention_mask : List Bool) : Fin d → ℝ :=
  fun j =>
    ((last_hidden_states.zip attention_mask).map
        (fun p => if p.2 then p.1 j else 0)).sum /
      (attention_mask.count true : ℝ)

/-- The vector `encode` produces for a single text: pool the model's token
vectors for `"passage: " ++ text` and L2-normalize the result. -/
noncomputable def passageVector {d : Nat} (lastHidden : String → List (Fin d → ℝ))
    (attnMask : String → List Bool) (eps : ℝ) (text : String) : Fin d → ℝ :=
  l2normalize eps
    (average_pool (lastHidden ("passage: " ++ text))
      (attnMask ("passage: " ++ text)))

/-- The vector `encode_queries` produces for a single query, with the
`"query: "` prefix instead of `"passage: "`. -/
noncomputable def queryVector {d : Nat} (lastHidden : String → List (Fin d → ℝ))
    (attnMask : String → List Bool) (eps : ℝ) (query : String) : Fin d → ℝ :=
  l2normalize eps
    (average_pool (lastHidden ("query: " ++ query))
      (attnMask ("query: " ++ query)))

/-- The batching loop of `encode`: `for i in range(0, len(texts), batch_size)`
processes `texts[i:i+batch_size]` and the final `np.vstack` concatenates the
per-batch rows in order.  `fuel` bounds the number of batches; `encode`
passes `texts.length`, which suffices for every `batch_size ≥ 1`
(`batch_size = 0` makes Python's `range` raise and is unreachable). -/
noncomputable def encodeLoop {d : Nat} (f : String → Fin d → ℝ) (batch_size : Nat) :
    Nat → List String → List (Fin d → ℝ)
  | _, [] => []
  | 0, _ :: _ => []
  | fuel + 1, l@(_ :: _) =>
    (l.take batch_size).map f ++ encodeLoop f batch_size fuel (l.drop batch_size)

/-- `E5Embedder.encode(texts, batch_size=8)`: each batch gets the
`"passage: "` prefix, is pooled with `_average_pool` and L2-normalized;
`np.vstack` keeps the rows in input order. -/
noncomputable def encode {d : Nat} (lastHidden : String → List (Fin d → ℝ))
    (attnMask : String → List Bool) (eps : ℝ)
    (texts : List String) (batch_size : Nat) : List (Fin d → ℝ) :=
  encodeLoop (passageVector lastHidden attnMask eps) batch_size
    texts.length texts

/-- `E5Embedder.encode_queries(queries)`: one tokenizer/model call over all
queries with the `"query: "` prefix, pooled and L2-normalized per row. -/
noncomputable def encode_queries {d : Nat} (lastHidden : String → List (Fin d → ℝ))
    (attnMask : String → List Bool) (eps : ℝ)
    (queries : List String) : List (Fin d → ℝ) :=
  queries.map (queryVector lastHidden attnMask eps)

end E5Embedder

/-! ### Index construction and persistence -/

/-- `create_improved_faiss_index(legal_data, embedder, chunk_size=256,
overlap=50)`: chunk the documents, embed the chunk texts with
`embedder.encode` (default `batch_size = 8`), and add the embeddings to a
fresh `faiss.IndexFlatIP` in that order.  The flat index is modelled by
the list of its vectors in insertion order: `index.add` appends rows and
assigns each vector its 0-based insertion rank as its position.  Returns
`(index, chunks, references)`; `none` propagates a chunking run that did
not finish. -/
noncomputable def create_improved_faiss_index {d : Nat}
    (lastHidden : String → List (Fin d → ℝ)) (attnMask : String → List Bool)
    (eps : ℝ) (legal_data : List Document)
    (chunk_size overlap fuel : Nat) :
    Option (List (Fin d → ℝ) × List String × List String) :=
  match chunk_documents legal_data chunk_size overlap fuel with
  | none => none
  | some (chunks, references) =>
    some (E5Embedder.encode lastHidden attnMask eps chunks 8,
          chunks, references)

/-- The bundle pickled by `save_index_components` into
`chunks_references.pkl`: `{"chunks": ..., "references": ...,
"embedder_model": ...}`. -/
structure IndexBundle where
  chunks : List String
  references : List String
  embedder_model : String
deriving DecidableEq, Repr

/-- The load half of the verification cell: `pickle.load` the bundle and
report `len(data["chunks"])` and `data["embedder_model"]`.  The cell never
compares the loaded components against each other or against the FAISS
index's vector count (`index_vector_count` below is never consulted), and
it has no failure path for a misaligned bundle; `Except String` records
that a corruption error is never raised. -/
def verification_cell_load (bundle : IndexBundle)
    (_index_vector_count : Nat) : Except String (Nat × String) :=
  Except.ok (bundle.chunks.length, bundle.embedder_model)

/-! ### Helper lemmas about the chunking loop -/

/-- Every pair the inner loop emits is the chunk text and augmented
reference of some window start inside the word list. -/
theorem chunkLoop_shape (words : List String) (reference : String)
    (max_chunk_size overlap : Nat) :
    ∀ fuel cp ps, chunkLoop words reference max_chunk_size overlap fuel cp = some ps →
      ∀ p ∈ ps, ∃ c, c < words.length ∧
        p = (windowText words max_chunk_size c, windowRef reference max_chunk_size c) := by
  intro fuel
  induction fuel with
  | zero =>
    intro cp ps h p hp
    simp only [chunkLoop] at h
    split at h
    · exact absurd h (by simp)
    · obtain rfl : ([] : List (String × String)) = ps := Option.some.inj h
      simp at hp
  | succ fuel ih =>
    intro cp ps h p hp
    simp only [chunkLoop] at h
    split at h
    case isTrue hlt =>
      cases hrec : chunkLoop words reference max_chunk_size overlap fuel
          (cp + max_chunk_size - overlap) with
      | none => rw [hrec] at h; exact absurd h (by simp)
      | some rest =>
        rw [hrec] at h
        obtain rfl := Option.some.inj h
        rcases List.mem_cons.mp hp with rfl | hp'
        · exact ⟨cp, hlt, rfl⟩
        · exact ih _ rest hrec p hp'
    case isFalse =>
      obtain rfl : ([] : List (String × String)) = ps := Option.some.inj h
      simp at hp

/-- With a strictly positive step, `fuel ≥ len(words) - cp` iterations
suffice for the loop to finish. -/
theorem chunkLoop_isSome (words : List String) (reference : String)
    (max_chunk_size overlap : Nat) (hov : overlap < max_chunk_size) :
    ∀ fuel cp, words.length - cp ≤ fuel →
      (chunkLoop words reference max_chunk_size overlap fuel cp).isSome := by
  intro fuel
  induction fuel with
  | zero =>
    intro cp hcp
    simp only [chunkLoop]
    rw [if_neg (by omega)]
    simp
  | succ fuel ih =>
    intro cp hcp
    simp only [chunkLoop]
    split
    case isTrue hlt =>
      have h' := ih (cp + max_chunk_size - overlap) (by omega)
      cases hrec : chunkLoop words reference max_chunk_size overlap fuel
          (cp + max_chunk_size - overlap) with
      | none => rw [hrec] at h'; simp at h'
      | some rest => simp
    case isFalse => simp

/-- A run of the loop that finished with some amount of fuel gives the same
result with any larger amount. -/
theorem chunkLoop_fuel_mono (words : List String) (reference : String)
    (max_chunk_size overlap : Nat) :
    ∀ fuel fuel' cp ps, fuel ≤ fuel' →
      chunkLoop words reference max_chunk_size overlap fuel cp = some ps →
      chunkLoop words reference max_chunk_size overlap fuel' cp = some ps := by
  intro fuel
  induction fuel with
  | zero =>
    intro fuel' cp ps _ h
    simp only [chunkLoop] at h
    split at h
    · exact absurd h (by simp)
    · obtain rfl : ([] : List (String × String)) = ps := Option.some.inj h
      cases fuel' with
      | zero => simp only [chunkLoop]; rw [if_neg (by assumption)]
      | succ fuel'' => simp only [chunkLoop]; rw [if_neg (by assumption)]
  | succ fuel ih =>
    intro fuel' cp ps hle h
    cases fuel' with
    | zero => omega
    | succ fuel'' =>
      simp only [chunkLoop] at h ⊢
      split at h
      case isTrue hlt =>
        rw [if_pos hlt]
        cases hrec : chunkLoop words reference max_chunk_size overlap fuel
            (cp + max_chunk_size - overlap) with
        | none => rw [hrec] at h; exact absurd h (by simp)
        | some rest =>
          rw [hrec] at h
          rw [ih fuel'' _ rest (by omega) hrec]
          exact h
      case isFalse hge =>
        rw [if_neg hge]
        exact h

/-- One step of the ceiling-division recurrence counting loop iterations:
with step `s ≥ 1` and at least one word left, one emitted chunk plus the
chunks of the rest is `⌈m / s⌉` chunks in total. -/
theorem ceil_div_step (m s : Nat) (hm : 1 ≤ m) (hs : 1 ≤ s) :
    (m - s + s - 1) / s + 1 = (m + s - 1) / s := by
  rcases le_or_lt m s with hms | hms
  · have h1 : m - s = 0 := by omega
    rw [h1]
    have h2 : (0 + s - 1) / s = 0 := Nat.div_eq_of_lt (by omega)
    rw [h2]
    rw [show m + s - 1 = (m - 1) + s by omega, Nat.add_div_right _ (by omega)]
    rw [Nat.div_eq_of_lt (by omega)]
  · rw [show m - s + s - 1 = (m - s - 1) + s by omega,
        Nat.add_div_right _ (by omega)]
    rw [show m + s - 1 = (m - 1) + s by omega, Nat.add_div_right _ (by omega)]
    rw [show m - 1 = (m - s - 1) + s by omega, Nat.add_div_right _ (by omega)]

/-- The loop starting at `cp` emits exactly `⌈(len(words) - cp) / step⌉`
chunks, where `step = max_chunk_size - overlap`. -/
theorem chunkLoop_length (words : List String) (reference : String)
    (max_chunk_size overlap : Nat) (hov : overlap < max_chunk_size) :
    ∀ fuel cp ps, chunkLoop words reference max_chunk_size overlap fuel cp = some ps →
      ps.length =
        (words.length - cp + (max_chunk_size - overlap) - 1) /
          (max_chunk_size - overlap) := by
  intro fuel
  induction fuel with
  | zero =>
    intro cp ps h
    simp only [chunkLoop] at h
    split at h
    · exact absurd h (by simp)
    · obtain rfl : ([] : List (String × String)) = ps := Option.some.inj h
      have hcp : words.length - cp = 0 := by omega
      rw [hcp]
      simp only [List.length_nil]
      exact (Nat.div_eq_of_lt (by omega)).symm
  | succ fuel ih =>
    intro cp ps h
    simp only [chunkLoop] at h
    split at h
    case isTrue hlt =>
      cases hrec : chunkLoop words reference max_chunk_size overlap fuel
          (cp + max_chunk_size - overlap) with
      | none => rw [hrec] at h; exact absurd h (by simp)
      | some rest =>
        rw [hrec] at h
        obtain rfl := Option.some.inj h
        have hrest := ih _ rest hrec
        simp only [List.length_cons, hrest]
        have harg : words.length - (cp + max_chunk_size - overlap) =
            words.length - cp - (max_chunk_size - overlap) := by omega
        rw [harg]
        exact ceil_div_step (words.length - cp) (max_chunk_size - overlap)
          (by omega) (by omega)
    case isFalse hge =>
      obtain rfl : ([] : List (String × String)) = ps := Option.some.inj h
      have hcp : words.length - cp = 0 := by omega
      rw [hcp]
      simp only [List.length_nil]
      exact (Nat.div_eq_of_lt (by omega)).symm

/-- Every pair a single document contributes is either the unchanged
`(text, reference)` of the short path or a window of the long path. -/
theorem docChunks_shape (text reference : String) (max_chunk_size overlap fuel : Nat)
    (ps : List (String × String))
    (h : docChunks text reference max_chunk_size overlap fuel = some ps) :
    ∀ p ∈ ps, p = (text, reference) ∨
      ∃ c, c < (splitWords text).length ∧
        p = (windowText (splitWords text) max_chunk_size c,
             windowRef reference max_chunk_size c) := by
  intro p hp
  unfold docChunks at h
  split at h
  · obtain rfl := Option.some.inj h
    rcases List.mem_singleton.mp hp with rfl
    exact Or.inl rfl
  · exact Or.inr (chunkLoop_shape (splitWords text) reference max_chunk_size overlap
      fuel 0 ps h p hp)

/-- With a positive step, `fuel ≥ len(text.split())` makes the per-document
body finish. -/
theorem docChunks_isSome (text reference : String) (max_chunk_size overlap fuel : Nat)
    (hov : overlap < max_chunk_size) (hfuel : countWords text ≤ fuel) :
    (docChunks text reference max_chunk_size overlap fuel).isSome := by
  unfold docChunks
  split
  · simp
  · exact chunkLoop_isSome (splitWords text) reference max_chunk_size overlap hov
      fuel 0 (by simpa [countWords] using hfuel)

/-- The per-document body is stable under giving the loop more fuel. -/
theorem docChunks_fuel_mono (text reference : String)
    (max_chunk_size overlap : Nat) (fuel fuel' : Nat) (ps : List (String × String))
    (hle : fuel ≤ fuel')
    (h : docChunks text reference max_chunk_size overlap fuel = some ps) :
    docChunks text reference max_chunk_size overlap fuel' = some ps := by
  unfold docChunks at h ⊢
  split at h
  · rw [if_pos (by assumption)]; exact h
  · rw [if_neg (by assumption)]
    exact chunkLoop_fuel_mono (splitWords text) reference max_chunk_size overlap
      fuel fuel' 0 ps hle h

/-- Every pair in the concatenated output comes from the per-document
chunks of some document of the input. -/
theorem chunkPairs_mem (max_chunk_size overlap fuel : Nat) :
    ∀ (legal_data : List Document) (ps : List (String × String)),
      chunkPairs max_chunk_size overlap fuel legal_data = some ps →
      ∀ p ∈ ps, ∃ doc ∈ legal_data, ∃ qs,
        docChunks doc.text doc.reference max_chunk_size overlap fuel = some qs ∧
        p ∈ qs := by
  intro legal_data
  induction legal_data with
  | nil =>
    intro ps h p hp
    obtain rfl : ([] : List (String × String)) = ps := Option.some.inj h
    simp at hp
  | cons doc rest ih =>
    intro ps h p hp
    simp only [chunkPairs] at h
    cases hdoc : docChunks doc.text doc.reference max_chunk_size overlap fuel with
    | none => rw [hdoc] at h; exact absurd h (by simp)
    | some qs =>
      rw [hdoc] at h
      cases hrest : chunkPairs max_chunk_size overlap fuel rest with
      | none => rw [hrest] at h; exact absurd h (by simp)
      | some rs =>
        rw [hrest] at h
        obtain rfl := Option.some.inj h
        rcases List.mem_append.mp hp with hq | hr
        · exact ⟨doc, List.mem_cons_self doc rest, qs, hdoc, hq⟩
        · obtain ⟨doc', hdoc', qs', hqs', hp'⟩ := ih rs hrest p hr
          exact ⟨doc', List.mem_cons_of_mem doc hdoc', qs', hqs', hp'⟩

/-- If each document's body finishes, so does the whole chunker. -/
theorem chunkPairs_isSome (max_chunk_size overlap fuel : Nat) :
    ∀ legal_data : List Document,
      (∀ doc ∈ legal_data, countWords doc.text ≤ fuel) →
      overlap < max_chunk_size →
      (chunkPairs max_chunk_size overlap fuel legal_data).isSome := by
  intro legal_data
  induction legal_data with
  | nil => intro _ _; simp [chunkPairs]
  | cons doc rest ih =>
    intro hfuel hov
    simp only [chunkPairs]
    have hdoc := docChunks_isSome doc.text doc.reference max_chunk_size overlap fuel
      hov (hfuel doc (List.mem_cons_self doc rest))
    have hrest := ih (fun d hd => hfuel d (List.mem_cons_of_mem doc hd)) hov
    cases h1 : docChunks doc.text doc.reference max_chunk_size overlap fuel with
    | none => rw [h1] at hdoc; simp at hdoc
    | some qs =>
      cases h2 : chunkPairs max_chunk_size overlap fuel rest with
      | none => rw [h2] at hrest; simp at hrest
      | some rs => simp

/-! ### Helper lemmas about the embedder -/

/-- Every row the batching loop produces is `f` of one of the input texts. -/
theorem encodeLoop_mem {d : Nat} (f : String → Fin d → ℝ) (batch_size : Nat) :
    ∀ fuel (l : List String) (v : Fin d → ℝ),
      v ∈ E5Embedder.encodeLoop f batch_size fuel l → ∃ t ∈ l, v = f t := by
  intro fuel
  induction fuel with
  | zero =>
    intro l v hv
    cases l with
    | nil => simp [E5Embedder.encodeLoop] at hv
    | cons x xs => simp [E5Embedder.encodeLoop] at hv
  | succ fuel ih =>
    intro l v hv
    cases l with
    | nil => simp [E5Embedder.encodeLoop] at hv
    | cons x xs =>
      simp only [E5Embedder.encodeLoop] at hv
      rcases List.mem_append.mp hv with htake | hdrop
      · obtain ⟨t, ht, rfl⟩ := List.mem_map.mp htake
        exact ⟨t, List.take_subset batch_size (x :: xs) ht, rfl⟩
      · obtain ⟨t, ht, rfl⟩ := ih ((x :: xs).drop batch_size) v hdrop
        exact ⟨t, List.drop_subset batch_size (x :: xs) ht, rfl⟩

/-- With a positive batch size and enough fuel, the batching loop is just
`map`: `np.vstack` of the per-batch rows restores the input order. -/
theorem encodeLoop_eq_map {d : Nat} (f : String → Fin d → ℝ) (batch_size : Nat)
    (hbs : 1 ≤ batch_size) :
    ∀ fuel (l : List String), l.length ≤ fuel →
      E5Embedder.encodeLoop f batch_size fuel l = l.map f := by
  intro fuel
  induction fuel with
  | zero =>
    intro l hl
    cases l with
    | nil => simp [E5Embedder.encodeLoop]
    | cons x xs => simp at hl
  | succ fuel ih =>
    intro l hl
    cases l with
    | nil => simp [E5Embedder.encodeLoop]
    | cons x xs =>
      simp only [E5Embedder.encodeLoop]
      have hlen : ((x :: xs).drop batch_size).length ≤ fuel := by
        rw [List.length_drop]
        simp only [List.length_cons] at hl ⊢
        omega
      rw [ih ((x :: xs).drop batch_size) hlen]
      rw [← List.map_append, List.take_append_drop]

/-- `encode` is `passageVector` mapped over the texts, in order. -/
theorem encode_eq_map {d : Nat} (lastHidden : String → List (Fin d → ℝ))
    (attnMask : String → List Bool) (eps : ℝ) (texts : List String)
    (batch_size : Nat) (hbs : 1 ≤ batch_size) :
    E5Embedder.encode lastHidden attnMask eps texts batch_size =
      texts.map (E5Embedder.passageVector lastHidden attnMask eps) :=
  encodeLoop_eq_map _ batch_size hbs texts.length texts (le_refl _)

/-- The sum of squared entries is nonnegative. -/
theorem sumSq_nonneg {d : Nat} (v : Fin d → ℝ) : 0 ≤ sumSq v :=
  Finset.sum_nonneg fun j _ => sq_nonneg (v j)

/-- `torch.nn.functional.normalize` yields a unit-norm vector whenever the
input's norm is at least `eps` (so the `max(‖v‖, eps)` clamp is inactive). -/
theorem l2norm_l2normalize {d : Nat} (eps : ℝ) (v : Fin d → ℝ)
    (heps : 0 < eps) (hv : eps ≤ l2norm v) :
    l2norm (l2normalize eps v) = 1 := by
  have hc : max (l2norm v) eps = l2norm v := max_eq_left hv
  have hpos : 0 < l2norm v := lt_of_lt_of_le heps hv
  have hsq : (l2norm v) ^ 2 = sumSq v := Real.sq_sqrt (sumSq_nonneg v)
  have hone : sumSq (l2normalize eps v) = 1 := by
    unfold sumSq l2normalize
    rw [hc]
    calc ∑ j, (v j / l2norm v) ^ 2
        = ∑ j, v j ^ 2 / (l2norm v) ^ 2 := by
          refine Finset.sum_congr rfl fun j _ => ?_
          rw [div_pow]
      _ = (∑ j, v j ^ 2) / (l2norm v) ^ 2 := by rw [Finset.sum_div]
      _ = sumSq v / sumSq v := by rw [hsq]; rfl
      _ = 1 := div_self (by rw [← hsq]; positivity)
  unfold l2norm
  rw [hone]
  exact Real.sqrt_one

/-! ### Concrete instances used to evaluate the theorems -/

/-- A one-dimensional stand-in for the opaque encoder: every input string
gets one token whose hidden vector is the constant `3`. -/
noncomputable def lh0 : String → List (Fin 1 → ℝ) := fun _ => [fun _ => 3]

/-- The matching attention mask: the single token is attended. -/
def am0 : String → List Bool := fun _ => [true]

/-- The pairs `chunk_documents` produces for the document
`("a b c d e", "Art.1")` with `max_chunk_size = 3`, `overlap = 1`. -/
def psC2 : List (String × String) :=
  [("a b c", "Art.1 - Фрагмент 1"),
   ("c d e", "Art.1 - Фрагмент 1"),
   ("e", "Art.1 - Фрагмент 2")]

example : docChunks "a b c d e" "Art.1" 3 1 3 = some psC2 := by decide

/-- `average_pool` on the stand-in encoder gives the constant vector `3`. -/
theorem average_pool_lh0 (s : String) :
    E5Embedder.average_pool (lh0 s) (am0 s) = fun _ : Fin 1 => (3 : ℝ) := by
  funext j
  simp [E5Embedder.average_pool, lh0, am0]

/-- The L2 norm of the constant one-dimensional vector `3` is `3`. -/
theorem l2norm_three : l2norm (fun _ : Fin 1 => (3 : ℝ)) = 3 := by
  unfold l2norm sumSq
  rw [Fin.sum_univ_one]
  exact Real.sqrt_sq (by norm_num)

/-! ### The claims -/

/-- C1: `chunk_documents` returns two equally long, identically ordered
sequences in which the i-th reference is derived from the same source
document (and window position) as the i-th chunk text, and
`create_improved_faiss_index` adds the embedding vectors to the index in
exactly this order, so index position `i` always corresponds to
`chunks[i]` and `references[i]`. -/
theorem C1_parallel_alignment {d : Nat}
    (lastHidden : String → List (Fin d → ℝ)) (attnMask : String → List Bool)
    (eps : ℝ) (legal_data : List Document) (chunk_size overlap fuel : Nat)
    (index : List (Fin d → ℝ)) (chunks references : List String)
    (h : create_improved_faiss_index lastHidden attnMask eps legal_data
        chunk_size overlap fuel = some (index, chunks, references)) :
    chunks.length = references.length ∧
    index = chunks.map (E5Embedder.passageVector lastHidden attnMask eps) ∧
    ∀ i (hi : i < chunks.length) (hi' : i < references.length),
      ∃ doc ∈ legal_data,
        (chunks.get ⟨i, hi⟩ = doc.text ∧
         references.get ⟨i, hi'⟩ = doc.reference) ∨
        ∃ cp, cp < (splitWords doc.text).length ∧
          chunks.get ⟨i, hi⟩ = windowText (splitWords doc.text) chunk_size cp ∧
          references.get ⟨i, hi'⟩ = windowRef doc.reference chunk_size cp := by
  unfold create_improved_faiss_index at h
  cases hcd : chunk_documents legal_data chunk_size overlap fuel with
  | none => rw [hcd] at h; exact absurd h (by simp)
  | some cr =>
    obtain ⟨cs, rs⟩ := cr
    rw [hcd] at h
    have h' := Option.some.inj h
    simp only [Prod.mk.injEq] at h'
    obtain ⟨hidx, hcs, hrs⟩ := h'
    subst hidx; subst hcs; subst hrs
    unfold chunk_documents at hcd
    cases hps : chunkPairs chunk_size overlap fuel legal_data with
    | none => rw [hps] at hcd; exact absurd hcd (by simp)
    | some ps =>
      rw [hps] at hcd
      simp only [Option.map_some'] at hcd
      have hcd' := Option.some.inj hcd
      simp only [Prod.mk.injEq] at hcd'
      obtain ⟨hcs', hrs'⟩ := hcd'
      subst hcs'; subst hrs'
      refine ⟨by simp, encode_eq_map lastHidden attnMask eps _ 8 (by norm_num), ?_⟩
      intro i hi hi'
      have hip : i < ps.length := by simpa using hi
      have hpmem : ps.get ⟨i, hip⟩ ∈ ps := List.get_mem ps i hip
      obtain ⟨doc, hdoc, qs, hqs, hpin⟩ :=
        chunkPairs_mem chunk_size overlap fuel legal_data ps hps _ hpmem
      have hget1 : (ps.map Prod.fst).get ⟨i, hi⟩ = (ps.get ⟨i, hip⟩).1 := by
        simp [List.getElem_map]
      have hget2 : (ps.map Prod.snd).get ⟨i, hi'⟩ = (ps.get ⟨i, hip⟩).2 := by
        simp [List.getElem_map]
      rcases docChunks_shape doc.text doc.reference chunk_size overlap fuel qs
          hqs _ hpin with hshort | ⟨c, hc, hwin⟩
      · exact ⟨doc, hdoc, Or.inl ⟨by rw [hget1, hshort], by rw [hget2, hshort]⟩⟩
      · exact ⟨doc, hdoc, Or.inr ⟨c, hc, by rw [hget1, hwin], by rw [hget2, hwin]⟩⟩

/-- Witness for C1 at a concrete input: one short document, so the index
holds exactly the embedding of its single chunk. -/
theorem C1_parallel_alignment_witness :
    (["a b"] : List String).length = (["R"] : List String).length ∧
    E5Embedder.encode lh0 am0 1 ["a b"] 8 =
      (["a b"] : List String).map (E5Embedder.passageVector lh0 am0 1) ∧
    ∀ i (hi : i < (["a b"] : List String).length)
        (hi' : i < (["R"] : List String).length),
      ∃ doc ∈ [(⟨"a b", "R"⟩ : Document)],
        ((["a b"] : List String).get ⟨i, hi⟩ = doc.text ∧
         (["R"] : List String).get ⟨i, hi'⟩ = doc.reference) ∨
        ∃ cp, cp < (splitWords doc.text).length ∧
          (["a b"] : List String).get ⟨i, hi⟩ =
            windowText (splitWords doc.text) 3 cp ∧
          (["R"] : List String).get ⟨i, hi'⟩ = windowRef doc.reference 3 cp :=
  C1_parallel_alignment lh0 am0 1 [⟨"a b", "R"⟩] 3 1 5
    (E5Embedder.encode lh0 am0 1 ["a b"] 8) ["a b"] ["R"] rfl

/-- C2, as stated, is false on the code: for the 5-word document with
`max_chunk_size = 3`, `overlap = 1` (so `N > max_chunk_size` and
`0 ≤ overlap < max_chunk_size`) the loop emits 3 chunks, while
`ceil((N - overlap) / (max_chunk_size - overlap)) = ceil(4 / 2) = 2`. -/
theorem C2_counterexample :
    countWords "a b c d e" = 5 ∧ 3 < 5 ∧ 1 < 3 ∧
    (chunk_documents [⟨"a b c d e", "Art.1"⟩] 3 1 10).map
      (fun r => r.1.length) = some 3 ∧
    (5 - 1 + (3 - 1) - 1) / (3 - 1) = 2 ∧ (3 : Nat) ≠ 2 := by
  decide

/-- C2 amended: for a document with `N > max_chunk_size` words and
`0 ≤ overlap < max_chunk_size`, the chunker emits exactly
`ceil(N / (max_chunk_size - overlap))` chunks for that document — the
window-start sequence `0, s, 2s, …` keeps emitting while it is `< N`. -/
theorem C2_chunk_count (text reference : String)
    (max_chunk_size overlap fuel : Nat) (ps : List (String × String))
    (hov : overlap < max_chunk_size) (hlong : max_chunk_size < countWords text)
    (h : docChunks text reference max_chunk_size overlap fuel = some ps) :
    ps.length = (countWords text + (max_chunk_size - overlap) - 1) /
      (max_chunk_size - overlap) := by
  unfold docChunks at h
  rw [if_neg (by omega)] at h
  have := chunkLoop_length (splitWords text) reference max_chunk_size overlap hov
    fuel 0 ps h
  simpa [countWords] using this

/-- Witness for C2 at the concrete 5-word document: 3 chunks, matching
`ceil(5 / 2)`. -/
theorem C2_chunk_count_witness :
    (1 < 3 ∧ 3 < countWords "a b c d e" ∧
      docChunks "a b c d e" "Art.1" 3 1 10 = some psC2) ∧
    psC2.length = (countWords "a b c d e" + (3 - 1) - 1) / (3 - 1) :=
  ⟨⟨by decide, by decide, by decide⟩,
   C2_chunk_count "a b c d e" "Art.1" 3 1 10 psC2 (by decide) (by decide)
     (by decide)⟩

/-- C3, as stated, is false on the code: on
`[{text: "a b c d e", ref: "Art.1"}]` with `max_chunk_size = 3`,
`overlap = 1` the code returns three chunks `["a b c", "c d e", "e"]`
(the loop keeps running while `current_position < len(words)`, so a last
window covering only already-seen words is emitted), and the reference
suffix is the Russian `"Фрагмент"` with indices `1, 1, 2` — not the
claimed two chunks with `"Fragment 1"`, `"Fragment 2"`. -/
theorem C3_counterexample :
    chunk_documents [⟨"a b c d e", "Art.1"⟩] 3 1 10 =
      some (["a b c", "c d e", "e"],
        ["Art.1 - Фрагмент 1", "Art.1 - Фрагмент 1", "Art.1 - Фрагмент 2"]) ∧
    chunk_documents [⟨"a b c d e", "Art.1"⟩] 3 1 10 ≠
      some (["a b c", "c d e"], ["Art.1 - Fragment 1", "Art.1 - Fragment 2"]) := by
  decide

/-- C3 amended: on that input the chunker returns exactly the chunk texts
`["a b c", "c d e", "e"]` and the references
`["Art.1 - Фрагмент 1", "Art.1 - Фрагмент 1", "Art.1 - Фрагмент 2"]`
(for any number of loop iterations allowed beyond the 3 the run needs). -/
theorem C3_example_output (fuel : Nat) (hfuel : 3 ≤ fuel) :
    chunk_documents [⟨"a b c d e", "Art.1"⟩] 3 1 fuel =
      some (["a b c", "c d e", "e"],
        ["Art.1 - Фрагмент 1", "Art.1 - Фрагмент 1", "Art.1 - Фрагмент 2"]) := by
  have hdoc : docChunks "a b c d e" "Art.1" 3 1 fuel = some psC2 :=
    docChunks_fuel_mono "a b c d e" "Art.1" 3 1 3 fuel psC2 hfuel (by decide)
  unfold chunk_documents
  simp only [chunkPairs, hdoc]
  decide

/-- Witness for C3 at fuel 10. -/
theorem C3_example_output_witness :
    3 ≤ 10 ∧
    chunk_documents [⟨"a b c d e", "Art.1"⟩] 3 1 10 =
      some (["a b c", "c d e", "e"],
        ["Art.1 - Фрагмент 1", "Art.1 - Фрагмент 1", "Art.1 - Фрагмент 2"]) :=
  ⟨by decide, C3_example_output 10 (by decide)⟩

/-- C4: the code never rejects `overlap ≥ max_chunk_size`.  On a 3-word
document with `max_chunk_size = 2`, `overlap = 2` the window step is `0`,
`current_position` stays at `0 < 3`, and the `while` loop never
finishes: the run yields no result no matter how many iterations it is
allowed, instead of the configuration-time error the spec requires. -/
theorem C4_nonpositive_step_diverges :
    ∀ fuel, chunk_documents [⟨"a b c", "R"⟩] 2 2 fuel = none := by
  have hw : splitWords "a b c" = ["a", "b", "c"] := by decide
  have hloop : ∀ fuel, chunkLoop ["a", "b", "c"] "R" 2 2 fuel 0 = none := by
    intro fuel
    induction fuel with
    | zero => simp [chunkLoop]
    | succ fuel ih =>
      simp only [chunkLoop]
      rw [if_pos (by norm_num)]
      norm_num [ih]
  intro fuel
  have hdoc : docChunks "a b c" "R" 2 2 fuel = none := by
    unfold docChunks
    rw [if_neg (by decide), hw]
    exact hloop fuel
  unfold chunk_documents
  simp only [chunkPairs, hdoc]
  rfl

/-- C5, as stated, is false on the code: a document with empty text has 0
words, `0 ≤ max_chunk_size` always holds, and the short path emits one
chunk — the empty string with the unchanged reference — not zero chunks. -/
theorem C5_counterexample :
    chunk_documents [⟨"", "R"⟩] 256 50 1 = some ([""], ["R"]) ∧
    ([""] : List String).length ≠ 0 := by
  decide

/-- C5 amended: a document whose text is the empty string contributes
exactly one chunk, the empty string itself, with the reference unchanged,
and no error, for every `max_chunk_size`, `overlap` and fuel. -/
theorem C5_empty_text (reference : String) (max_chunk_size overlap fuel : Nat) :
    docChunks "" reference max_chunk_size overlap fuel =
      some [("", reference)] := by
  have h0 : countWords "" = 0 := by decide
  unfold docChunks
  rw [if_pos (by rw [h0]; exact Nat.zero_le _)]

/-- C6, as stated, is false on the code: the fragment index formula
`(window_start // max_chunk_size) + 1` is the one the code uses, but the
suffix word is the Russian `"Фрагмент"`, not `"Fragment"`. -/
theorem C6_counterexample :
    (chunk_documents [⟨"a b c d e", "Art.1"⟩] 3 1 10).map (fun r => r.2) =
      some ["Art.1 - Фрагмент 1", "Art.1 - Фрагмент 1", "Art.1 - Фрагмент 2"] ∧
    "Art.1 - Фрагмент 1" ≠ "Art.1 - Fragment 1" := by
  decide

/-- C6 amended: for a document split into multiple chunks, each emitted
pair's reference is the original reference suffixed as
`"<reference> - Фрагмент <n>"` with `n = (window_start // max_chunk_size) + 1`
for that pair's window start, and its text is that window's text. -/
theorem C6_fragment_references (text reference : String)
    (max_chunk_size overlap fuel : Nat) (ps : List (String × String))
    (hlong : max_chunk_size < countWords text)
    (h : docChunks text reference max_chunk_size overlap fuel = some ps) :
    ∀ p ∈ ps, ∃ cp, cp < (splitWords text).length ∧
      p.2 = reference ++ " - Фрагмент " ++ toString (cp / max_chunk_size + 1) ∧
      p.1 = windowText (splitWords text) max_chunk_size cp := by
  intro p hp
  unfold docChunks at h
  rw [if_neg (by omega)] at h
  obtain ⟨c, hc, hpc⟩ :=
    chunkLoop_shape (splitWords text) reference max_chunk_size overlap fuel 0 ps
      h p hp
  exact ⟨c, hc, by rw [hpc]; rfl, by rw [hpc]⟩

/-- Witness for C6 at the first emitted pair of the 5-word example. -/
theorem C6_fragment_references_witness :
    ∃ cp, cp < (splitWords "a b c d e").length ∧
      ("a b c", "Art.1 - Фрагмент 1").2 =
        "Art.1" ++ " - Фрагмент " ++ toString (cp / 3 + 1) ∧
      ("a b c", "Art.1 - Фрагмент 1").1 =
        windowText (splitWords "a b c d e") 3 cp :=
  C6_fragment_references "a b c d e" "Art.1" 3 1 10 psC2 (by decide) (by decide)
    ("a b c", "Art.1 - Фрагмент 1") (by decide)

/-- C7: a document whose word count is at most `max_chunk_size` yields
exactly one chunk, the original text with the original reference
unchanged. -/
theorem C7_short_document (text reference : String)
    (max_chunk_size overlap fuel : Nat) (h : countWords text ≤ max_chunk_size) :
    docChunks text reference max_chunk_size overlap fuel =
      some [(text, reference)] := by
  unfold docChunks
  rw [if_pos h]

/-- Witness for C7: a 2-word document with `max_chunk_size = 3`. -/
theorem C7_short_document_witness :
    countWords "a b" ≤ 3 ∧
    docChunks "a b" "R" 3 1 0 = some [("a b", "R")] :=
  ⟨by decide, C7_short_document "a b" "R" 3 1 0 (by decide)⟩

/-- C8: the load side in the source (the verification cell) performs no
alignment validation at all.  On a bundle whose chunk and reference
counts disagree with each other and with the index's vector count, it
still succeeds and reports the chunk count and model name, instead of
raising a corruption/format error. -/
theorem C8_no_alignment_validation :
    verification_cell_load ⟨["a"], [], "intfloat/multilingual-e5-small"⟩ 2 =
      Except.ok (1, "intfloat/multilingual-e5-small") ∧
    (IndexBundle.mk ["a"] [] "intfloat/multilingual-e5-small").chunks.length ≠
      (IndexBundle.mk ["a"] []
        "intfloat/multilingual-e5-small").references.length ∧
    (IndexBundle.mk ["a"] [] "intfloat/multilingual-e5-small").chunks.length ≠ 2 :=
  ⟨rfl, by decide, by decide⟩

/-- C9: every vector `encode` or `encode_queries` returns is the
L2-normalization of its mean-pooled representation, so it has L2 norm
exactly 1 over the reals, provided that pooled representation's norm is at
least the `eps` of torch's `normalize` clamp (`1e-12` by default) — the
non-degenerate regime the floating-point tolerance of the claim refers
to. -/
theorem C9_unit_norm_embeddings {d : Nat}
    (lastHidden : String → List (Fin d → ℝ)) (attnMask : String → List Bool)
    (eps : ℝ) (texts queries : List String) (batch_size : Nat)
    (heps : 0 < eps)
    (hpool : ∀ s : String,
      eps ≤ l2norm (E5Embedder.average_pool (lastHidden s) (attnMask s))) :
    (∀ v ∈ E5Embedder.encode lastHidden attnMask eps texts batch_size,
      l2norm v = 1) ∧
    (∀ v ∈ E5Embedder.encode_queries lastHidden attnMask eps queries,
      l2norm v = 1) := by
  constructor
  · intro v hv
    obtain ⟨t, ht, rfl⟩ := encodeLoop_mem _ batch_size texts.length texts v hv
    exact l2norm_l2normalize eps _ heps (hpool _)
  · intro v hv
    obtain ⟨q, hq, rfl⟩ := List.mem_map.mp hv
    exact l2norm_l2normalize eps _ heps (hpool _)

/-- Witness for C9 on the concrete stand-in encoder: the passage and query
vectors of the text `"t"` both have unit norm. -/
theorem C9_unit_norm_embeddings_witness :
    l2norm (E5Embedder.passageVector lh0 am0 1 "t") = 1 ∧
    l2norm (E5Embedder.queryVector lh0 am0 1 "t") = 1 := by
  have hpool : ∀ s : String,
      (1 : ℝ) ≤ l2norm (E5Embedder.average_pool (lh0 s) (am0 s)) := by
    intro s
    rw [average_pool_lh0 s, l2norm_three]
    norm_num
  have h := C9_unit_norm_embeddings lh0 am0 1 ["t"] ["t"] 8 (by norm_num) hpool
  refine ⟨h.1 _ ?_, h.2 _ ?_⟩
  · rw [encode_eq_map lh0 am0 1 ["t"] 8 (by norm_num)]
    simp
  · simp [E5Embedder.encode_queries]

/-- C10: with `max_chunk_size ≥ 1` and `0 ≤ overlap < max_chunk_size` the
chunker terminates — the window start grows by the strictly positive step
`max_chunk_size - overlap` each iteration, so `len(text.split())`
iterations per document always suffice. -/
theorem C10_chunker_terminates (legal_data : List Document)
    (max_chunk_size overlap fuel : Nat) (hov : overlap < max_chunk_size)
    (hfuel : ∀ doc ∈ legal_data, countWords doc.text ≤ fuel) :
    (chunk_documents legal_data max_chunk_size overlap fuel).isSome := by
  unfold chunk_documents
  have h := chunkPairs_isSome max_chunk_size overlap fuel legal_data hfuel hov
  cases hps : chunkPairs max_chunk_size overlap fuel legal_data with
  | none => rw [hps] at h; simp at h
  | some ps => simp

/-- Witness for C10 at a concrete document list. -/
theorem C10_chunker_terminates_witness :
    1 < 3 ∧
    (chunk_documents [⟨"a b c d e", "R"⟩, ⟨"a", "S"⟩] 3 1 5).isSome :=
  ⟨by decide,
   C10_chunker_terminates [⟨"a b c d e", "R"⟩, ⟨"a", "S"⟩] 3 1 5 (by decide)
     (by decide)⟩

end LegalGuardian
